import Mathlib

/-!
Verification of the phase-1 forward-propagation components of
`src/include/chia/phase1.hpp` (namespace `phase1`).

The numeric constants `kB`, `kC`, `kBC = kB*kC`, `kExtraBits`,
`kExtraBitsPow = 2^kExtraBits` are declared in `chia/phase1.h`, which is not
part of the sources; following the spec they are kept as parameters
(`B`, `C`, `E`, `E_pow`) of every definition, with `B*C` written out where the
code uses `kBC`.  The spec's toy instance `B=5, C=3, BC=15, E=1 (E_pow=2)` is
used to instantiate witnesses.
-/

set_option maxRecDepth 8000

namespace Phase1

/-- Embedding of `load_tables` / `L_targets` (phase1.hpp lines 21-35):
`L_targets[parity][i][m] = ((i/kC + m) % kB) * kC + (((2m+parity)^2 + i) % kC)`.
The C++ stores the value in a `uint16_t`; the stored value is below `B*C`
(see `L_target_lt`), so for the shipped constants (`kBC = 15113 < 2^16`) no
truncation occurs and the table entry is exactly this number. -/
def L_target (B C parity i m : Nat) : Nat :=
  ((i / C + m) % B) * C + (((2 * m + parity) * (2 * m + parity) + i) % C)

theorem L_target_lt (B C parity i m : Nat) (hB : 0 < B) (hC : 0 < C) :
    L_target B C parity i m < B * C := by
  have h1 : (i / C + m) % B ≤ B - 1 := Nat.le_sub_one_of_lt (Nat.mod_lt _ hB)
  have h2 : ((2 * m + parity) * (2 * m + parity) + i) % C < C := Nat.mod_lt _ hC
  calc L_target B C parity i m ≤ (B - 1) * C + (((2 * m + parity) * (2 * m + parity) + i) % C) := by
        exact Nat.add_le_add_right (Nat.mul_le_mul_right _ h1) _
    _ < (B - 1) * C + C := by omega
    _ ≤ B * C := by
        have : (B - 1) * C + C = (B - 1 + 1) * C := by ring
        rw [this]; exact Nat.mul_le_mul_right _ (by omega)

/-- The matching relation of spec §4.4, written from the spec's words (this is
the reference the optimized matcher is compared against): `yl`, `yr` match iff
`yr/BC = yl/BC + 1` and for some `m < E_pow` the two modular congruences hold,
with `parity = (yl/BC) % 2`.  The subtractions may be negative, so they are
taken over `Int` and the congruences use `Int` remainders. -/
def isMatch (E_pow B C yl yr : Nat) : Bool :=
  let BC := B * C
  let parity := (yl / BC) % 2
  (yr / BC == yl / BC + 1) &&
  ((List.range E_pow).any fun m =>
    (((((yr % BC) / C : Nat) : Int) - (((yl % BC) / C : Nat) : Int)) % (B : Int)
        == ((m : Int) % (B : Int))) &&
    (((((yr % BC) % C : Nat) : Int) - (((yl % BC) % C : Nat) : Int)) % (C : Int)
        == ((((2 * m + parity) * (2 * m + parity) : Nat) : Int) % (C : Int))))

/-- Embedding of `FxMatcher::rmap_item` (phase1.hpp lines 150-153). -/
structure rmap_item where
  pos : Nat
  count : Nat
deriving DecidableEq

/-- One iteration of the rmap-filling loop of `find_matches_ex`
(phase1.hpp lines 192-200): record the position of the first occurrence of a
residue and count all its occurrences. -/
def rmap_insert (m : Nat → rmap_item) (r_y pos_R : Nat) : Nat → rmap_item :=
  fun r =>
    if r = r_y then
      { pos := if (m r_y).count = 0 then pos_R else (m r_y).pos,
        count := (m r_y).count + 1 }
    else m r

/-- The rmap-filling loop of `find_matches_ex`, iterating over the right
bucket with a running position counter. -/
def build_rmap (offset : Nat) : List Nat → Nat → (Nat → rmap_item) → (Nat → rmap_item)
  | [], _, m => m
  | y :: ys, pos_R, m => build_rmap offset ys (pos_R + 1) (rmap_insert m (y - offset) pos_R)

/-- Embedding of `FxMatcher::find_matches_ex` (phase1.hpp lines 175-216),
returning the list of `(idx_L, idx_R)` pairs the C++ writes into the two index
buffers.  Buckets are represented by the lists of their entries' `y` values. -/
def find_matches_ex (E_pow B C : Nat) (bucket_L bucket_R : List Nat) : List (Nat × Nat) :=
  let kBC := B * C
  if bucket_L.isEmpty || bucket_R.isEmpty then []
  else
    let parity := (bucket_L.headI / kBC) % 2
    let offset := (bucket_R.headI / kBC) * kBC
    let rmap := build_rmap offset bucket_R 0 (fun _ => ⟨0, 0⟩)
    let offset_y := offset - kBC
    (List.range bucket_L.length).flatMap fun pos_L =>
      let r := bucket_L.getD pos_L 0 - offset_y
      (List.range E_pow).flatMap fun i =>
        let r_target := L_target B C parity r i
        (List.range (rmap r_target).count).map fun j =>
          (pos_L, (rmap r_target).pos + j)

/-- The brute-force reference matcher of spec §8: scan all `(i, j)` index
pairs of the two buckets and test the §4.4 relation (`isMatch`) directly. -/
def find_matches_naive (E_pow B C : Nat) (bucket_L bucket_R : List Nat) : List (Nat × Nat) :=
  (List.range bucket_L.length).flatMap fun i =>
    (List.range bucket_R.length).filterMap fun j =>
      if isMatch E_pow B C (bucket_L.getD i 0) (bucket_R.getD j 0) then some (i, j) else none

/-- Entries that share a `y` value sit next to each other (the layout produced
by a `y`-sorted stream, and the layout `find_matches_ex`'s first-position /
count bookkeeping relies on): whenever two positions hold the same value, the
successor of the first one still holds that value. -/
def dupContiguous (l : List Nat) : Prop :=
  ∀ i < l.length, ∀ k < l.length,
    i < k → l.getD i 0 = l.getD k 0 → l.getD (i + 1) 0 = l.getD i 0

instance (l : List Nat) : Decidable (dupContiguous l) := by
  unfold dupContiguous; infer_instance

/-- The interval form of `dupContiguous`: any position between two positions
holding the same value also holds that value. -/
theorem dupContiguous_between {l : List Nat} (h : dupContiguous l) :
    ∀ i j k, i ≤ j → j ≤ k → k < l.length →
      l.getD i 0 = l.getD k 0 → l.getD j 0 = l.getD i 0 := by
  intro i j k hij hjk hk heq
  induction j, hij using Nat.le_induction with
  | base => rfl
  | succ j hij ih =>
    have hjk' : j ≤ k := by omega
    have hj : l.getD j 0 = l.getD i 0 := ih hjk'
    have hjlt : j < k := by omega
    have hjlen : j < l.length := by omega
    have hstep : l.getD (j + 1) 0 = l.getD j 0 :=
      h j hjlen k hk hjlt (by rw [hj, heq])
    rw [hstep, hj]

/-! ### Characterization of the residue map built by `find_matches_ex` -/

theorem build_rmap_count (offset : Nat) (ys : List Nat) (p0 : Nat)
    (m : Nat → rmap_item) (r : Nat) :
    (build_rmap offset ys p0 m r).count
      = (m r).count + ys.countP (fun y => y - offset == r) := by
  induction ys generalizing p0 m with
  | nil => simp [build_rmap]
  | cons y ys ih =>
    rw [build_rmap, ih, List.countP_cons]
    by_cases h : y - offset = r
    · subst h
      simp [rmap_insert]
      omega
    · simp [rmap_insert, h, Ne.symm h]

theorem build_rmap_pos_of_count_ne (offset : Nat) (ys : List Nat) (p0 : Nat)
    (m : Nat → rmap_item) (r : Nat) (h : (m r).count ≠ 0) :
    (build_rmap offset ys p0 m r).pos = (m r).pos := by
  induction ys generalizing p0 m with
  | nil => simp [build_rmap]
  | cons y ys ih =>
    rw [build_rmap]
    by_cases hy : y - offset = r
    · subst hy
      rw [ih _ _ (by simp [rmap_insert])]
      simp [rmap_insert, h]
    · rw [ih _ _ (by simpa [rmap_insert, Ne.symm hy] using h)]
      simp [rmap_insert, Ne.symm hy]

theorem build_rmap_pos_of_count_zero (offset : Nat) (ys : List Nat) (p0 : Nat)
    (m : Nat → rmap_item) (r : Nat) (h0 : (m r).count = 0)
    (hocc : ys.countP (fun y => y - offset == r) ≠ 0) :
    (build_rmap offset ys p0 m r).pos
      = p0 + ys.findIdx (fun y => y - offset == r) := by
  induction ys generalizing p0 m with
  | nil => simp at hocc
  | cons y ys ih =>
    rw [build_rmap, List.findIdx_cons]
    by_cases hy : y - offset = r
    · subst hy
      have hcnt : ((rmap_insert m (y - offset) p0) (y - offset)).count ≠ 0 := by
        simp [rmap_insert]
      rw [build_rmap_pos_of_count_ne _ _ _ _ _ hcnt]
      simp [rmap_insert, h0]
    · have hne : (y - offset == r) = false := by simpa using hy
      rw [hne]
      have h0' : ((rmap_insert m (y - offset) p0) r).count = 0 := by
        simpa [rmap_insert, Ne.symm hy] using h0
      have hocc' : ys.countP (fun y => y - offset == r) ≠ 0 := by
        simpa [List.countP_cons, hne] using hocc
      rw [ih _ _ h0' hocc']
      simp
      omega

/-! ### Occurrence intervals for predicates with contiguous occurrences -/

/-- Without any hypothesis, the first-occurrence index plus the number of
occurrences never exceeds the list length. -/
theorem findIdx_add_countP_le (p : Nat → Bool) (l : List Nat) :
    l.findIdx p + l.countP p ≤ l.length := by
  induction l with
  | nil => simp
  | cons a l ih =>
    cases hpa : p a
    · have hfi : List.findIdx p (a :: l) = List.findIdx p l + 1 := by
        simp [List.findIdx_cons, hpa]
      have hcp : List.countP p (a :: l) = List.countP p l := by
        simp [List.countP_cons, hpa]
      rw [hfi, hcp, List.length_cons]
      omega
    · have hfi : List.findIdx p (a :: l) = 0 := by
        simp [List.findIdx_cons, hpa]
      have hcp : List.countP p (a :: l) = List.countP p l + 1 := by
        simp [List.countP_cons, hpa]
      rw [hfi, hcp, List.length_cons]
      have := List.countP_le_length p (l := l)
      omega

/-- If the positions where `p` holds are contiguous, then they are exactly the
interval `[findIdx p, findIdx p + countP p)`. -/
theorem occ_interval (p : Nat → Bool) (l : List Nat)
    (hc : ∀ i j k, i ≤ j → j ≤ k → k < l.length →
      p (l.getD i 0) = true → p (l.getD k 0) = true → p (l.getD j 0) = true) :
    ∀ j < l.length,
      (p (l.getD j 0) = true ↔ l.findIdx p ≤ j ∧ j < l.findIdx p + l.countP p) := by
  induction l with
  | nil => intro j hj; simp at hj
  | cons a l ih =>
    have hc' : ∀ i j k, i ≤ j → j ≤ k → k < l.length →
        p (l.getD i 0) = true → p (l.getD k 0) = true → p (l.getD j 0) = true := by
      intro i j k hij hjk hk hi hk'
      have := hc (i + 1) (j + 1) (k + 1) (by omega) (by omega)
        (by simpa using Nat.succ_lt_succ hk)
      simpa using this (by simpa using hi) (by simpa using hk')
    intro j hj
    cases hpa : p a
    · -- head does not satisfy p
      have hfi : List.findIdx p (a :: l) = List.findIdx p l + 1 := by
        simp [List.findIdx_cons, hpa]
      have hcp : List.countP p (a :: l) = List.countP p l := by
        simp [List.countP_cons, hpa]
      rw [hfi, hcp]
      cases j with
      | zero =>
        rw [List.getD_cons_zero]
        constructor
        · intro h; rw [hpa] at h; exact absurd h (by simp)
        · intro h; exact absurd h.1 (by omega)
      | succ j =>
        have hj' : j < l.length := by simpa using hj
        rw [List.getD_cons_succ, ih hc' j hj']
        omega
    · -- head satisfies p
      have hfi : List.findIdx p (a :: l) = 0 := by
        simp [List.findIdx_cons, hpa]
      have hcp : List.countP p (a :: l) = List.countP p l + 1 := by
        simp [List.countP_cons, hpa]
      rw [hfi, hcp]
      by_cases hcnt : l.countP p = 0
      · have hnone : ∀ x ∈ l, ¬p x = true := List.countP_eq_zero.mp hcnt
        cases j with
        | zero =>
          rw [List.getD_cons_zero]
          exact ⟨fun _ => ⟨by omega, by omega⟩, fun _ => hpa⟩
        | succ j =>
          have hj' : j < l.length := by simpa using hj
          have hxf : ¬p (l.getD j 0) = true := by
            apply hnone
            rw [List.getD_eq_getElem _ _ hj']
            exact List.getElem_mem _
          rw [List.getD_cons_succ, hcnt]
          constructor
          · intro h; exact absurd h hxf
          · intro h; exact absurd h.2 (by omega)
      · -- some occurrence in the tail: contiguity forces the tail's head to match
        have hpos : 0 < l.countP p := Nat.pos_of_ne_zero hcnt
        obtain ⟨x, hxmem, hpx⟩ := List.countP_pos_iff.mp hpos
        obtain ⟨j0, hj0, hx⟩ := List.mem_iff_getElem.mp hxmem
        have hx' : p (l.getD j0 0) = true := by
          rw [List.getD_eq_getElem _ _ hj0, hx]; exact hpx
        have hhead : p (l.getD 0 0) = true := by
          have := hc 0 1 (j0 + 1) (by omega) (by omega)
            (by simpa using Nat.succ_lt_succ hj0) (by simpa using hpa)
            (by simpa using hx')
          simpa using this
        have hfind0 : l.findIdx p = 0 := by
          cases l with
          | nil => simp at hj0
          | cons b t =>
            simp only [List.getD_cons_zero] at hhead
            simp [List.findIdx_cons, hhead]
        cases j with
        | zero =>
          rw [List.getD_cons_zero]
          exact ⟨fun _ => ⟨by omega, by omega⟩, fun _ => hpa⟩
        | succ j =>
          have hj' : j < l.length := by simpa using hj
          have hiff := ih hc' j hj'
          rw [hfind0] at hiff
          rw [List.getD_cons_succ, hiff]
          omega

/-! ### The §4.4 congruences hold exactly at the precomputed targets -/

/-- For residues `r` (left) and `s` (right) inside one bucket group, the two
modular congruences of spec §4.4 hold for `m` exactly when `s` is the
precomputed target `L_target parity r m`. -/
theorem target_congruence (B C parity r s m : Nat) (hB : 0 < B) (hC : 0 < C)
    (hs : s < B * C) :
    ((((s / C : Nat) : Int) - ((r / C : Nat) : Int)) % (B : Int)
        = ((m : Int) % (B : Int))
      ∧ ((((s % C : Nat) : Int) - ((r % C : Nat) : Int)) % (C : Int)
        = ((((2 * m + parity) * (2 * m + parity) : Nat) : Int) % (C : Int))))
    ↔ s = L_target B C parity r m := by
  set K : Nat := (2 * m + parity) * (2 * m + parity) with hK
  set q : Nat := (r / C + m) % B with hq
  set t : Nat := (K + r) % C with ht
  have htC : t < C := Nat.mod_lt _ hC
  have hqB : q < B := Nat.mod_lt _ hB
  have hLt : L_target B C parity r m = q * C + t := rfl
  constructor
  · rintro ⟨h1, h2⟩
    -- the division part
    have hsC : s / C < B := (Nat.div_lt_iff_lt_mul hC).mpr hs
    have h1' : ((s / C : Nat) : Int) % (B : Int)
        = (((r / C : Nat) : Int) + (m : Int)) % (B : Int) := by
      calc ((s / C : Nat) : Int) % (B : Int)
          = (((s / C : Nat) : Int) - ((r / C : Nat) : Int)
              + ((r / C : Nat) : Int)) % (B : Int) := by ring_nf
        _ = ((((s / C : Nat) : Int) - ((r / C : Nat) : Int)) % (B : Int)
              + ((r / C : Nat) : Int) % (B : Int)) % (B : Int) := by
            rw [← Int.add_emod]
        _ = ((m : Int) % (B : Int)
              + ((r / C : Nat) : Int) % (B : Int)) % (B : Int) := by rw [h1]
        _ = (((r / C : Nat) : Int) + (m : Int)) % (B : Int) := by
            rw [← Int.add_emod]; ring_nf
    have h1n : (s / C) % B = (r / C + m) % B := by
      have : ((((s / C) % B : Nat)) : Int) = (((r / C + m) % B : Nat) : Int) := by
        rw [Int.natCast_mod (s / C) B, Int.natCast_mod (r / C + m) B, Nat.cast_add]
        exact h1'
      exact_mod_cast this
    have hdiv : s / C = q := by
      rw [hq, ← h1n, Nat.mod_eq_of_lt hsC]
    -- the remainder part
    have hsCC : s % C < C := Nat.mod_lt _ hC
    have h2' : ((s % C : Nat) : Int) % (C : Int)
        = ((K : Int) + ((r % C : Nat) : Int)) % (C : Int) := by
      calc ((s % C : Nat) : Int) % (C : Int)
          = (((s % C : Nat) : Int) - ((r % C : Nat) : Int)
              + ((r % C : Nat) : Int)) % (C : Int) := by ring_nf
        _ = ((((s % C : Nat) : Int) - ((r % C : Nat) : Int)) % (C : Int)
              + ((r % C : Nat) : Int) % (C : Int)) % (C : Int) := by
            rw [← Int.add_emod]
        _ = ((K : Int) % (C : Int)
              + ((r % C : Nat) : Int) % (C : Int)) % (C : Int) := by
            rw [h2]
        _ = ((K : Int) + ((r % C : Nat) : Int)) % (C : Int) := by
            rw [← Int.add_emod]
    have h2n : (s % C) % C = (K + r % C) % C := by
      have : ((((s % C) % C : Nat)) : Int) = (((K + r % C) % C : Nat) : Int) := by
        rw [Int.natCast_mod (s % C) C, Int.natCast_mod (K + r % C) C, Nat.cast_add]
        exact h2'
      exact_mod_cast this
    have hKr : (K + r % C) % C = (K + r) % C := by
      conv_lhs => rw [Nat.add_mod]
      conv_rhs => rw [Nat.add_mod]
      rw [Nat.mod_mod_of_dvd _ dvd_rfl]
    have hmod : s % C = t := by
      rw [Nat.mod_eq_of_lt hsCC] at h2n
      rw [h2n, hKr, ← ht]
    rw [hLt, ← hdiv, ← hmod]
    exact (Nat.div_add_mod' s C).symm
  · intro hseq
    subst hseq
    rw [hLt]
    have hsd : (q * C + t) / C = q := by
      have h' : q * C + t = C * q + t := by ring
      rw [h', Nat.mul_add_div hC, Nat.div_eq_of_lt htC]
      rfl
    have hsm : (q * C + t) % C = t := by
      have h' : q * C + t = C * q + t := by ring
      rw [h', Nat.mul_add_mod, Nat.mod_eq_of_lt htC]
    constructor
    · rw [hsd, hq]
      have hcast : ((((r / C + m) % B : Nat)) : Int)
          = (((r / C : Nat) : Int) + (m : Int)) % (B : Int) := by
        rw [Int.natCast_mod, Nat.cast_add]
      rw [hcast, Int.sub_emod, Int.emod_emod_of_dvd _ dvd_rfl, ← Int.sub_emod]
      have harith : (((r / C : Nat) : Int) + (m : Int)) - ((r / C : Nat) : Int)
          = (m : Int) := by ring
      rw [harith]
    · rw [hsm, ht]
      have hcast : ((((K + r) % C : Nat)) : Int)
          = ((K : Int) + (r : Int)) % (C : Int) := by
        rw [Int.natCast_mod, Nat.cast_add]
      have hrc : ((r % C : Nat) : Int) = (r : Int) % (C : Int) := by
        rw [Int.natCast_mod]
      rw [hcast, hrc, Int.sub_emod, Int.emod_emod_of_dvd _ dvd_rfl,
        Int.emod_emod_of_dvd _ dvd_rfl, ← Int.sub_emod]
      have harith : (K : Int) + (r : Int) - (r : Int) = (K : Int) := by ring
      rw [harith]

/-- The §4.4 matching test succeeds on `yl` (bucket `b`) and `yr` (bucket
`b+1`) exactly when `yr`'s residue is one of the `E_pow` precomputed targets
of `yl`'s residue. -/
theorem isMatch_iff_target (E_pow B C b yl yr : Nat) (hB : 0 < B) (hC : 0 < C)
    (hyl : yl / (B * C) = b) (hyr : yr / (B * C) = b + 1) :
    isMatch E_pow B C yl yr = true ↔
      ∃ m < E_pow, yr % (B * C) = L_target B C (b % 2) (yl % (B * C)) m := by
  have hBC : 0 < B * C := Nat.mul_pos hB hC
  have hs : yr % (B * C) < B * C := Nat.mod_lt _ hBC
  rw [isMatch]
  simp only [hyl, hyr]
  rw [Bool.and_eq_true, List.any_eq_true]
  constructor
  · rintro ⟨-, m, hm, hf⟩
    rw [List.mem_range] at hm
    rw [Bool.and_eq_true, beq_iff_eq, beq_iff_eq] at hf
    exact ⟨m, hm,
      (target_congruence B C (b % 2) (yl % (B * C)) (yr % (B * C)) m hB hC hs).mp hf⟩
  · rintro ⟨m, hm, heq⟩
    refine ⟨by simp, m, List.mem_range.mpr hm, ?_⟩
    rw [Bool.and_eq_true, beq_iff_eq, beq_iff_eq]
    exact (target_congruence B C (b % 2) (yl % (B * C)) (yr % (B * C)) m hB hC hs).mpr heq

theorem headI_mem_of_ne_nil {l : List Nat} (h : l ≠ []) : l.headI ∈ l := by
  cases l with
  | nil => exact absurd rfl h
  | cons x xs => exact List.mem_cons_self x xs

/-- Membership in the brute-force scan output: exactly the in-range index
pairs whose `y` values pass the §4.4 test. -/
theorem mem_find_matches_naive_iff (E_pow B C : Nat) (L R : List Nat) (pr : Nat × Nat) :
    pr ∈ find_matches_naive E_pow B C L R ↔
      pr.1 < L.length ∧ pr.2 < R.length ∧
        isMatch E_pow B C (L.getD pr.1 0) (R.getD pr.2 0) = true := by
  obtain ⟨a, c⟩ := pr
  rw [find_matches_naive, List.mem_flatMap]
  constructor
  · rintro ⟨i, hi, hmem⟩
    rw [List.mem_range] at hi
    rw [List.mem_filterMap] at hmem
    obtain ⟨j, hj, hf⟩ := hmem
    rw [List.mem_range] at hj
    by_cases hM : isMatch E_pow B C (L.getD i 0) (R.getD j 0) = true
    · rw [if_pos hM] at hf
      obtain ⟨rfl, rfl⟩ := Prod.mk.injEq .. ▸ Option.some.inj hf
      exact ⟨hi, hj, hM⟩
    · rw [if_neg hM] at hf
      exact absurd hf (by simp)
  · rintro ⟨ha, hc, hM⟩
    exact ⟨a, List.mem_range.mpr ha,
      List.mem_filterMap.mpr ⟨c, List.mem_range.mpr hc, by rw [if_pos hM]⟩⟩

/-- The central characterization of the optimized matcher's output: for
buckets `L` (index `b`) and `R` (index `b+1`) whose equal `y` values are
contiguous, a pair is emitted exactly when it is in range and its `y` values
pass the §4.4 test. -/
theorem mem_find_matches_ex_iff (E_pow B C b : Nat) (hB : 0 < B) (hC : 0 < C)
    (L R : List Nat)
    (hL : ∀ y ∈ L, y / (B * C) = b) (hR : ∀ y ∈ R, y / (B * C) = b + 1)
    (hcR : dupContiguous R) (pr : Nat × Nat) :
    pr ∈ find_matches_ex E_pow B C L R ↔
      pr.1 < L.length ∧ pr.2 < R.length ∧
        isMatch E_pow B C (L.getD pr.1 0) (R.getD pr.2 0) = true := by
  have hBC : 0 < B * C := Nat.mul_pos hB hC
  obtain ⟨a, c⟩ := pr
  by_cases hLnil : L = []
  · subst hLnil
    simp [find_matches_ex]
  by_cases hRnil : R = []
  · subst hRnil
    simp [find_matches_ex]
  have hoffL : L.headI / (B * C) = b := hL _ (headI_mem_of_ne_nil hLnil)
  have hoffR : R.headI / (B * C) = b + 1 := hR _ (headI_mem_of_ne_nil hRnil)
  have hcond : (L.isEmpty || R.isEmpty) = false := by
    simp [List.isEmpty_iff, hLnil, hRnil]
  have hoffy : (b + 1) * (B * C) - B * C = b * (B * C) := by
    rw [Nat.succ_mul]; omega
  have hsubL : ∀ y : Nat, y / (B * C) = b → y - b * (B * C) = y % (B * C) := by
    intro y hy
    have h1 : B * C * (y / (B * C)) + y % (B * C) = y := Nat.div_add_mod y (B * C)
    rw [hy, mul_comm (B * C) b] at h1
    omega
  have hsubR : ∀ y : Nat, y / (B * C) = b + 1 →
      y - (b + 1) * (B * C) = y % (B * C) ∧ (b + 1) * (B * C) ≤ y := by
    intro y hy
    have h1 : B * C * (y / (B * C)) + y % (B * C) = y := Nat.div_add_mod y (B * C)
    rw [hy, mul_comm (B * C) (b + 1)] at h1
    omega
  -- the predicate recognizing entries of residue t in the right bucket
  have hres : ∀ t : Nat, ∀ j, (hj : j < R.length) →
      ((fun y => y - (b + 1) * (B * C) == t) (R.getD j 0) = true
        ↔ R.getD j 0 % (B * C) = t) := by
    intro t j hj
    have hmem : R.getD j 0 ∈ R := by
      rw [List.getD_eq_getElem _ _ hj]; exact List.getElem_mem _
    rw [beq_iff_eq, (hsubR _ (hR _ hmem)).1]
  -- occurrences of each residue are contiguous in R
  have hctg : ∀ t : Nat, ∀ i j k, i ≤ j → j ≤ k → k < R.length →
      (fun y => y - (b + 1) * (B * C) == t) (R.getD i 0) = true →
      (fun y => y - (b + 1) * (B * C) == t) (R.getD k 0) = true →
      (fun y => y - (b + 1) * (B * C) == t) (R.getD j 0) = true := by
    intro t i j k hij hjk hk hi hk'
    have hilen : i < R.length := by omega
    have hmemi : R.getD i 0 ∈ R := by
      rw [List.getD_eq_getElem _ _ hilen]; exact List.getElem_mem _
    have hmemk : R.getD k 0 ∈ R := by
      rw [List.getD_eq_getElem _ _ hk]; exact List.getElem_mem _
    rw [beq_iff_eq] at hi hk' ⊢
    have hik : R.getD i 0 = R.getD k 0 := by
      have h1 := (hsubR _ (hR _ hmemi)).2
      have h2 := (hsubR _ (hR _ hmemk)).2
      omega
    rw [dupContiguous_between hcR i j k hij hjk hk hik, hi]
  rw [find_matches_ex]
  simp only [hcond, Bool.false_eq_true, if_false, hoffL, hoffR, hoffy]
  rw [List.mem_flatMap]
  constructor
  · rintro ⟨pos_L, hpos, h⟩
    rw [List.mem_range] at hpos
    rw [List.mem_flatMap] at h
    obtain ⟨i, hi, h⟩ := h
    rw [List.mem_range] at hi
    rw [List.mem_map] at h
    obtain ⟨j, hj, hpair⟩ := h
    rw [List.mem_range] at hj
    obtain ⟨rfl, rfl⟩ := Prod.mk.injEq .. ▸ hpair
    have hamem : L.getD pos_L 0 ∈ L := by
      rw [List.getD_eq_getElem _ _ hpos]; exact List.getElem_mem _
    set t : Nat := L_target B C (b % 2) (L.getD pos_L 0 - b * (B * C)) i with hT
    set p : Nat → Bool := fun y => y - (b + 1) * (B * C) == t with hp
    have hcount : (build_rmap ((b + 1) * (B * C)) R 0 (fun _ => ⟨0, 0⟩) t).count
        = R.countP p := by
      rw [build_rmap_count]
      simp [hp]
    have hcnt0 : R.countP p ≠ 0 := by
      rw [hcount] at hj; omega
    have hposF : (build_rmap ((b + 1) * (B * C)) R 0 (fun _ => ⟨0, 0⟩) t).pos
        = R.findIdx p := by
      rw [build_rmap_pos_of_count_zero _ _ _ _ _ rfl hcnt0]
      simp [hp]
    rw [hcount] at hj
    rw [hposF]
    have hcle := findIdx_add_countP_le p R
    have hclen : R.findIdx p + j < R.length := by omega
    have hocc := (occ_interval p R (hctg t) (R.findIdx p + j) hclen).mpr
      ⟨by omega, by omega⟩
    have hresid : R.getD (R.findIdx p + j) 0 % (B * C) = t :=
      (hres t _ hclen).mp hocc
    refine ⟨hpos, hclen, ?_⟩
    rw [isMatch_iff_target E_pow B C b _ _ hB hC (hL _ hamem) (by
      have hmem : R.getD (R.findIdx p + j) 0 ∈ R := by
        rw [List.getD_eq_getElem _ _ hclen]; exact List.getElem_mem _
      exact hR _ hmem)]
    refine ⟨i, hi, ?_⟩
    rw [hresid, hT, hsubL _ (hL _ hamem)]
  · rintro ⟨ha, hc, hM⟩
    have hamem : L.getD a 0 ∈ L := by
      rw [List.getD_eq_getElem _ _ ha]; exact List.getElem_mem _
    have hcmem : R.getD c 0 ∈ R := by
      rw [List.getD_eq_getElem _ _ hc]; exact List.getElem_mem _
    rw [isMatch_iff_target E_pow B C b _ _ hB hC (hL _ hamem) (hR _ hcmem)] at hM
    obtain ⟨m, hm, heq⟩ := hM
    set t : Nat := L_target B C (b % 2) (L.getD a 0 % (B * C)) m with hT
    set p : Nat → Bool := fun y => y - (b + 1) * (B * C) == t with hp
    have hoccc : p (R.getD c 0) = true := (hres t c hc).mpr heq
    have hcnt0 : R.countP p ≠ 0 := by
      intro h0
      exact absurd hoccc (by
        have := List.countP_eq_zero.mp h0 _ hcmem
        simpa using this)
    have hcount : (build_rmap ((b + 1) * (B * C)) R 0 (fun _ => ⟨0, 0⟩) t).count
        = R.countP p := by
      rw [build_rmap_count]
      simp [hp]
    have hposF : (build_rmap ((b + 1) * (B * C)) R 0 (fun _ => ⟨0, 0⟩) t).pos
        = R.findIdx p := by
      rw [build_rmap_pos_of_count_zero _ _ _ _ _ rfl hcnt0]
      simp [hp]
    have hival := (occ_interval p R (hctg t) c hc).mp hoccc
    refine ⟨a, List.mem_range.mpr ha, ?_⟩
    rw [List.mem_flatMap]
    refine ⟨m, List.mem_range.mpr hm, ?_⟩
    rw [List.mem_map]
    have hTform : L_target B C (b % 2) (L.getD a 0 - b * (B * C)) m = t := by
      rw [hT, hsubL _ (hL _ hamem)]
    refine ⟨c - R.findIdx p, ?_, ?_⟩
    · rw [List.mem_range, hTform, hcount]
      omega
    · rw [hTform, hposF]
      have : R.findIdx p + (c - R.findIdx p) = c := by omega
      rw [this]

/-! ### Claim C1: the optimized matcher agrees with the brute-force scan -/

/-- C1: for buckets `L` (bucket index `b`) and `R` (bucket index `b+1`) in
which entries sharing a `y` value are contiguous, the set of `(i, j)` index
pairs returned by `find_matches_ex` equals exactly the set found by the
brute-force scan testing the §4.4 relation on all pairs: same pairs, no
extras, none missing. -/
theorem matcher_agrees_with_bruteforce
    (E_pow B C b : Nat) (hB : 0 < B) (hC : 0 < C)
    (L R : List Nat)
    (hL : ∀ y ∈ L, y / (B * C) = b) (hR : ∀ y ∈ R, y / (B * C) = b + 1)
    (hcL : dupContiguous L) (hcR : dupContiguous R) (pr : Nat × Nat) :
    pr ∈ find_matches_ex E_pow B C L R ↔ pr ∈ find_matches_naive E_pow B C L R := by
  rw [mem_find_matches_ex_iff E_pow B C b hB hC L R hL hR hcR pr,
    mem_find_matches_naive_iff]

/-- Witness for C1 at the spec's toy constants `B=5, C=3, E_pow=2` with
`L = [1, 0]` (bucket 0) and `R = [16, 15]` (bucket 1). -/
theorem matcher_agrees_with_bruteforce_witness :
    (0, 0) ∈ find_matches_ex 2 5 3 [1, 0] [16, 15] ↔
      (0, 0) ∈ find_matches_naive 2 5 3 [1, 0] [16, 15] :=
  matcher_agrees_with_bruteforce 2 5 3 0 (by decide) (by decide) [1, 0] [16, 15]
    (by decide) (by decide) (by decide) (by decide) (0, 0)

/-! ### Claim C2: soundness of emitted pairs against the §4.4 relation -/

/-- C2 counterexample: with only the bucket-index precondition of the claim
(equal `y` values NOT contiguous in the right bucket), `find_matches_ex`
returns the index pair `(0, 1)` whose `y` values `0` and `16` fail the §4.4
matching relation, refuting the claim as stated.  Toy constants
`B=5, C=3, BC=15, E_pow=2`; `L = [0]` lies in bucket 0 and `R = [15, 16, 15]`
lies in bucket 1. -/
theorem matcher_unsound_without_contiguity :
    (∀ y ∈ [(0 : Nat)], y / 15 = 0) ∧ (∀ y ∈ [(15 : Nat), 16, 15], y / 15 = 1) ∧
    ((0, 1) ∈ find_matches_ex 2 5 3 [0] [15, 16, 15]) ∧
    isMatch 2 5 3 (List.getD [0] 0 0) (List.getD [15, 16, 15] 1 0) = false := by
  exact ⟨by decide, by decide, by decide, by decide⟩

/-- C2 (amended: the right bucket's equal `y` values must additionally be
contiguous, as in the sorted streams the pipeline feeds the matcher): every
index pair returned by `find_matches_ex` satisfies the §4.4 matching relation
(`floor(yr/BC) - floor(yl/BC) = 1` and the two congruences for some
`m < E_pow`, i.e. `isMatch`). -/
theorem matcher_sound
    (E_pow B C b : Nat) (hB : 0 < B) (hC : 0 < C)
    (L R : List Nat)
    (hL : ∀ y ∈ L, y / (B * C) = b) (hR : ∀ y ∈ R, y / (B * C) = b + 1)
    (hcR : dupContiguous R) :
    ∀ pr ∈ find_matches_ex E_pow B C L R,
      isMatch E_pow B C (L.getD pr.1 0) (R.getD pr.2 0) = true := by
  intro pr hpr
  exact ((mem_find_matches_ex_iff E_pow B C b hB hC L R hL hR hcR pr).mp hpr).2.2

/-- Witness for the amended C2 at the toy constants. -/
theorem matcher_sound_witness :
    isMatch 2 5 3 (List.getD [1, 0] 0 0) (List.getD [16, 15] 0 0) = true :=
  matcher_sound 2 5 3 0 (by decide) (by decide) [1, 0] [16, 15]
    (by decide) (by decide) (by decide) (0, 0) (by decide)

/-! ### Claim C10: the emitted match count can overflow the `kBC` buffers -/

/-- C10 (code bug): `find_matches` passes `find_matches_ex` two index buffers
of length `kBC`, yet on legitimate buckets (bucket indices `b` and `b+1`, each
of size at most `kBC`, duplicates contiguous) the matcher emits more than
`kBC` pairs.  At the toy constants `B=5, C=3, kBC=15`, fifteen copies of
`y=0` against fifteen copies of `y=15` produce `225 > 15` pairs, so the writes
`idx_L[idx_count]`/`idx_R[idx_count]` run past the buffers. -/
theorem matcher_overflows_kBC_buffers :
    (∀ y ∈ List.replicate 15 (0 : Nat), y / 15 = 0) ∧
    (∀ y ∈ List.replicate 15 (15 : Nat), y / 15 = 1) ∧
    (List.replicate 15 (0 : Nat)).length ≤ 15 ∧
    (List.replicate 15 (15 : Nat)).length ≤ 15 ∧
    dupContiguous (List.replicate 15 (0 : Nat)) ∧
    dupContiguous (List.replicate 15 (15 : Nat)) ∧
    (find_matches_ex 2 5 3 (List.replicate 15 0) (List.replicate 15 15)).length = 225 ∧
    15 < 225 := by
  exact ⟨by decide, by decide, by decide, by decide, by decide, by decide,
    by decide, by decide⟩

/-! ### `FxMatcher::find_matches` and the `pos`/`off` encoding (claim C9) -/

/-- Embedding of `match_t` (declared in `phase1.h`, fields as used by
`FxMatcher::find_matches`, phase1.hpp lines 226-233); entries are represented
by their `y` values. -/
structure match_t where
  left : Nat
  right : Nat
  pos : Nat
  off : Nat
deriving DecidableEq, Inhabited

/-- Embedding of `FxMatcher::find_matches` (phase1.hpp lines 218-235): run
`find_matches_ex` and package each index pair `(idx_L, idx_R)` with
`pos = L_pos_begin + idx_L` and `off = idx_R + (|bucket_L| - idx_L)`. -/
def find_matches (E_pow B C L_pos_begin : Nat) (bucket_L bucket_R : List Nat) :
    List match_t :=
  (find_matches_ex E_pow B C bucket_L bucket_R).map fun pr =>
    { left := bucket_L.getD pr.1 0, right := bucket_R.getD pr.2 0,
      pos := L_pos_begin + pr.1, off := pr.2 + (bucket_L.length - pr.1) }

/-- Every left index emitted by `find_matches_ex` is in range of the left
bucket. -/
theorem find_matches_ex_fst_lt (E_pow B C : Nat) (L R : List Nat) :
    ∀ pr ∈ find_matches_ex E_pow B C L R, pr.1 < L.length := by
  intro pr hpr
  rw [find_matches_ex] at hpr
  split at hpr
  · simp at hpr
  · rw [List.mem_flatMap] at hpr
    obtain ⟨pos_L, hpos, h⟩ := hpr
    rw [List.mem_range] at hpos
    rw [List.mem_flatMap] at h
    obtain ⟨i, -, h⟩ := h
    rw [List.mem_map] at h
    obtain ⟨j, -, rfl⟩ := h
    exact hpos

/-- C9 counterexample: no recovery function of `(pos, off, |bucket_L|)` alone
returns the right-bucket index of every match.  Two legitimate calls that
differ in `L_pos_begin` produce matches with identical `(pos, off) = (1, 2)`
and identical left-bucket length `2`, yet right indices `1` resp. `0`
(toy constants `B=5, C=3, E_pow=2`). -/
theorem find_matches_recovery_needs_begin :
    ¬ ∃ g : Nat → Nat → Nat → Nat,
      ∀ (E_pow B C b L_pos_begin : Nat) (L R : List Nat),
        0 < B → 0 < C →
        (∀ y ∈ L, y / (B * C) = b) → (∀ y ∈ R, y / (B * C) = b + 1) →
        ∀ k, k < (find_matches_ex E_pow B C L R).length →
          g ((find_matches E_pow B C L_pos_begin L R).getD k default).pos
            ((find_matches E_pow B C L_pos_begin L R).getD k default).off
            L.length
          = ((find_matches_ex E_pow B C L R).getD k default).2 := by
  rintro ⟨g, hg⟩
  have h1 := hg 2 5 3 0 0 [1, 0] [16, 15] (by decide) (by decide)
    (by decide) (by decide) 1 (by decide)
  have h2 := hg 2 5 3 0 1 [0, 1] [15] (by decide) (by decide)
    (by decide) (by decide) 0 (by decide)
  have e1 : (find_matches 2 5 3 0 [1, 0] [16, 15]).getD 1 default
      = ⟨0, 15, 1, 2⟩ := by decide
  have e2 : ((find_matches_ex 2 5 3 [1, 0] [16, 15]).getD 1 default).2 = 1 := by decide
  have e3 : (find_matches 2 5 3 1 [0, 1] [15]).getD 0 default
      = ⟨0, 15, 1, 2⟩ := by decide
  have e4 : ((find_matches_ex 2 5 3 [0, 1] [15]).getD 0 default).2 = 0 := by decide
  rw [e1, e2] at h1
  rw [e3, e4] at h2
  simp only [List.length_cons, List.length_nil] at h1 h2
  rw [h1] at h2
  exact absurd h2 (by decide)

/-- C9 (amended: recovering the right index additionally needs
`L_pos_begin`, which the consumer of a bucket pair knows): every match
carries `pos = L_pos_begin + idx_L` and `off = idx_R + (|bucket_L| - idx_L)`,
and `idx_R = off + (pos - L_pos_begin) - |bucket_L|`, so `idx_R` is never
stored verbatim. -/
theorem find_matches_pos_off_encoding
    (E_pow B C L_pos_begin : Nat) (L R : List Nat) (k : Nat)
    (hk : k < (find_matches_ex E_pow B C L R).length) :
    ((find_matches E_pow B C L_pos_begin L R).getD k default).pos
        = L_pos_begin + ((find_matches_ex E_pow B C L R).getD k default).1
    ∧ ((find_matches E_pow B C L_pos_begin L R).getD k default).off
        = ((find_matches_ex E_pow B C L R).getD k default).2
          + (L.length - ((find_matches_ex E_pow B C L R).getD k default).1)
    ∧ ((find_matches_ex E_pow B C L R).getD k default).2
        = ((find_matches E_pow B C L_pos_begin L R).getD k default).off
          + (((find_matches E_pow B C L_pos_begin L R).getD k default).pos
              - L_pos_begin)
          - L.length := by
  have hk' : k < (find_matches E_pow B C L_pos_begin L R).length := by
    simp only [find_matches, List.length_map]; exact hk
  have hmap : (find_matches E_pow B C L_pos_begin L R).getD k default
      = { left := L.getD ((find_matches_ex E_pow B C L R).getD k default).1 0,
          right := R.getD ((find_matches_ex E_pow B C L R).getD k default).2 0,
          pos := L_pos_begin + ((find_matches_ex E_pow B C L R).getD k default).1,
          off := ((find_matches_ex E_pow B C L R).getD k default).2
            + (L.length - ((find_matches_ex E_pow B C L R).getD k default).1) } := by
    rw [List.getD_eq_getElem _ _ hk', List.getD_eq_getElem _ _ hk]
    simp only [find_matches, List.getElem_map]
  have hmem : (find_matches_ex E_pow B C L R).getD k default
      ∈ find_matches_ex E_pow B C L R := by
    rw [List.getD_eq_getElem _ _ hk]; exact List.getElem_mem _
  have h1 : ((find_matches_ex E_pow B C L R).getD k default).1 < L.length :=
    find_matches_ex_fst_lt E_pow B C L R _ hmem
  refine ⟨by rw [hmap], by rw [hmap], ?_⟩
  rw [hmap]
  dsimp only
  omega

/-- Witness for the amended C9 at the toy constants. -/
theorem find_matches_pos_off_encoding_witness :
    ((find_matches 2 5 3 7 [1, 0] [16, 15]).getD 1 default).pos
        = 7 + ((find_matches_ex 2 5 3 [1, 0] [16, 15]).getD 1 default).1
    ∧ ((find_matches 2 5 3 7 [1, 0] [16, 15]).getD 1 default).off
        = ((find_matches_ex 2 5 3 [1, 0] [16, 15]).getD 1 default).2
          + ([1, 0].length - ((find_matches_ex 2 5 3 [1, 0] [16, 15]).getD 1 default).1)
    ∧ ((find_matches_ex 2 5 3 [1, 0] [16, 15]).getD 1 default).2
        = ((find_matches 2 5 3 7 [1, 0] [16, 15]).getD 1 default).off
          + (((find_matches 2 5 3 7 [1, 0] [16, 15]).getD 1 default).pos - 7)
          - [1, 0].length :=
  find_matches_pos_off_encoding 2 5 3 7 [1, 0] [16, 15] 1 (by decide)

/-! ### The slicing stage of `compute_matches` (claim C5) -/

/-- Embedding of the local `match_input_t` of `compute_matches`
(phase1.hpp lines 275-278): the two global offsets and the two bucket slots
captured for one matching job.  The bucket slots are `shared_ptr`s in the
C++, so a null pointer is `none`. -/
structure match_input_t where
  L_offset_0 : Nat
  L_offset_1 : Nat
  L_bucket_0 : Option (List Nat)
  L_bucket_1 : Option (List Nat)
deriving DecidableEq

/-- State of the `read_thread` slicing lambda of `compute_matches`
(phase1.hpp lines 301-338): the 2-slot sliding window `L_index`, `L_offset`,
`L_bucket` plus the matching jobs emitted so far.  The bucket slots are
`shared_ptr<vector>`s, initially null (`none`); the vector a non-null slot
points to is the list it carries. -/
structure SliceState where
  L_index_0 : Nat := 0
  L_index_1 : Nat := 0
  L_offset_0 : Nat := 0
  L_offset_1 : Nat := 0
  L_bucket_0 : Option (List Nat) := none
  L_bucket_1 : Option (List Nat) := none
  out : List match_input_t := []
deriving DecidableEq

/-- One iteration of the slicing loop (phase1.hpp lines 311-335): classify
the entry by its bucket index `y / kBC`, throw on a backwards step, rotate
the window on a forward step (emitting a job when the two previous buckets
were adjacent), then append the entry to the current bucket (allocating it if
null).  A forward step taken while `L_bucket[0]` is still null — which the
run semantics only reaches when the very first entry has a nonzero bucket
index — executes `L_offset[0] += L_bucket[0]->size()` (line 327) through a
null pointer; that abortive crash is modelled as the distinct outcome
`Except.error "null dereference"`.  (In the C++ the job emission of lines
318-323 would precede the crash, but the crash kills the whole drive, so the
lost emission is unobservable; it cannot fire in that situation anyway, since
a null `L_bucket[0]` only occurs in the initial state, where
`L_index[1] + 1 = L_index[0]` is false.) -/
def slice_step (kBC : Nat) (s : SliceState) (y : Nat) : Except String SliceState :=
  let index := y / kBC
  if index < s.L_index_0 then Except.error "input not sorted"
  else if s.L_index_0 < index then
    match s.L_bucket_0 with
    | none => Except.error "null dereference"
    | some b0 =>
      let s1 : SliceState :=
        { L_index_1 := s.L_index_0, L_index_0 := index,
          L_offset_1 := s.L_offset_0,
          L_offset_0 := s.L_offset_0 + b0.length,
          L_bucket_1 := some b0, L_bucket_0 := none,
          out := if s.L_index_1 + 1 = s.L_index_0 then
              s.out ++ [⟨s.L_offset_0, s.L_offset_1, s.L_bucket_0, s.L_bucket_1⟩]
            else s.out }
      Except.ok { s1 with L_bucket_0 := some (s1.L_bucket_0.getD [] ++ [y]) }
  else
    Except.ok { s with L_bucket_0 := some (s.L_bucket_0.getD [] ++ [y]) }

/-- The slicing loop over a stream of entries (the `for` loop of the
`read_thread` lambda, run over the whole concatenated input stream). -/
def slice_run (kBC : Nat) : SliceState → List Nat → Except String SliceState
  | s, [] => Except.ok s
  | s, y :: ys =>
    match slice_step kBC s y with
    | Except.error e => Except.error e
    | Except.ok s' => slice_run kBC s' ys

theorem slice_step_error (kBC : Nat) (s : SliceState) (y : Nat)
    (h : y / kBC < s.L_index_0) :
    slice_step kBC s y = Except.error "input not sorted" := by
  rw [slice_step, if_pos h]

theorem slice_step_null (kBC : Nat) (s : SliceState) (y : Nat)
    (h : ¬ y / kBC < s.L_index_0) (h2 : s.L_index_0 < y / kBC)
    (hb : s.L_bucket_0 = none) :
    slice_step kBC s y = Except.error "null dereference" := by
  rw [slice_step, if_neg h, if_pos h2, hb]

theorem slice_step_ok (kBC : Nat) (s : SliceState) (y : Nat)
    (h : ¬ y / kBC < s.L_index_0)
    (hsafe : s.L_bucket_0 ≠ none ∨ y / kBC = s.L_index_0) :
    ∃ s', slice_step kBC s y = Except.ok s'
      ∧ s'.L_index_0 = y / kBC ∧ s'.L_bucket_0 ≠ none := by
  rw [slice_step, if_neg h]
  by_cases h2 : s.L_index_0 < y / kBC
  · rw [if_pos h2]
    rcases hsafe with hb | he
    · cases hs0 : s.L_bucket_0 with
      | none => exact absurd hs0 hb
      | some b0 => exact ⟨_, rfl, rfl, by simp⟩
    · omega
  · rw [if_neg h2]
    refine ⟨_, rfl, ?_, by simp⟩
    dsimp only
    omega

/-- The slicer fails with `"input not sorted"` exactly when some entry it
reaches has a bucket index below the current slot's index `L_index[0]` (an
earlier null-pointer crash makes the corresponding prefix fail, so no such
entry is reached). -/
theorem slice_run_error_iff (kBC : Nat) :
    ∀ (input : List Nat) (s : SliceState),
      slice_run kBC s input = Except.error "input not sorted"
        ↔ ∃ k, ∃ _ : k < input.length, ∃ t,
            slice_run kBC s (input.take k) = Except.ok t
              ∧ input.getD k 0 / kBC < t.L_index_0 := by
  intro input
  induction input with
  | nil =>
    intro s
    constructor
    · intro h; exact absurd h (by simp [slice_run])
    · rintro ⟨k, hk, -⟩; simp at hk
  | cons y ys ih =>
    intro s
    by_cases hy : y / kBC < s.L_index_0
    · have herr := slice_step_error kBC s y hy
      constructor
      · intro _
        exact ⟨0, by simp, s, by simp [slice_run], by simpa using hy⟩
      · intro _
        simp only [slice_run, herr]
    · by_cases hnull : s.L_index_0 < y / kBC ∧ s.L_bucket_0 = none
      · have herr := slice_step_null kBC s y hy hnull.1 hnull.2
        have hrun : slice_run kBC s (y :: ys) = Except.error "null dereference" := by
          simp only [slice_run, herr]
        rw [hrun]
        constructor
        · intro hcontra
          exact absurd (Except.error.inj hcontra) (by decide)
        · rintro ⟨k, hk, t, hrt, hlt⟩
          cases k with
          | zero =>
            rw [List.take_zero] at hrt
            have h0 : slice_run kBC s [] = Except.ok s := rfl
            rw [h0] at hrt
            have hts : t = s := (Except.ok.inj hrt).symm
            rw [hts] at hlt
            simp only [List.getD_cons_zero] at hlt
            exact absurd hlt hy
          | succ k =>
            rw [List.take_succ_cons] at hrt
            simp only [slice_run, herr] at hrt
            exact absurd hrt (by simp)
      · have hsafe : s.L_bucket_0 ≠ none ∨ y / kBC = s.L_index_0 := by
          by_cases h2 : s.L_index_0 < y / kBC
          · exact Or.inl (fun hb => hnull ⟨h2, hb⟩)
          · exact Or.inr (by omega)
        obtain ⟨s', hs', hidx, -⟩ := slice_step_ok kBC s y hy hsafe
        have hrun : slice_run kBC s (y :: ys) = slice_run kBC s' ys := by
          simp only [slice_run, hs']
        rw [hrun, ih s']
        constructor
        · rintro ⟨k, hk, t, hrt, hlt⟩
          refine ⟨k + 1, by simpa using Nat.succ_lt_succ hk, t, ?_, by simpa using hlt⟩
          rw [List.take_succ_cons]
          simp only [slice_run, hs']
          exact hrt
        · rintro ⟨k, hk, t, hrt, hlt⟩
          cases k with
          | zero =>
            rw [List.take_zero] at hrt
            have hts : t = s := by
              have h0 : slice_run kBC s [] = Except.ok s := rfl
              rw [h0] at hrt
              exact (Except.ok.inj hrt).symm
            rw [hts] at hlt
            simp only [List.getD_cons_zero] at hlt
            exact absurd hlt hy
          | succ k =>
            rw [List.take_succ_cons] at hrt
            simp only [slice_run, hs'] at hrt
            exact ⟨k, by simpa using hk, t, hrt, by simpa using hlt⟩

/-- A stream with non-decreasing bucket indices is fully consumed, provided
the current bucket slot is already allocated or the stream opens at the
current slot's index (so the first rotation never reads a null pointer). -/
theorem slice_run_ok_of_sorted (kBC : Nat) :
    ∀ (input : List Nat) (s : SliceState),
      List.Chain' (· ≤ ·) (input.map (· / kBC)) →
      (∀ z ∈ input.take 1, s.L_index_0 ≤ z / kBC) →
      (s.L_bucket_0 ≠ none ∨ ∀ z ∈ input.take 1, z / kBC = s.L_index_0) →
      ∃ t, slice_run kBC s input = Except.ok t := by
  intro input
  induction input with
  | nil => exact fun s _ _ _ => ⟨s, rfl⟩
  | cons y ys ih =>
    intro s hchain hhead hsafe0
    have hy : s.L_index_0 ≤ y / kBC := hhead y (by simp)
    have hsafe : s.L_bucket_0 ≠ none ∨ y / kBC = s.L_index_0 := by
      rcases hsafe0 with hb | hz
      · exact Or.inl hb
      · exact Or.inr (hz y (by simp))
    obtain ⟨s', hs', hidx, hbne⟩ := slice_step_ok kBC s y (by omega) hsafe
    have hchain' : List.Chain' (· ≤ ·) (ys.map (· / kBC)) := by
      rw [List.map_cons] at hchain
      exact hchain.tail
    have hhead' : ∀ z ∈ ys.take 1, s'.L_index_0 ≤ z / kBC := by
      intro z hz
      cases ys with
      | nil => simp at hz
      | cons y2 t =>
        have hz' : z = y2 := by simpa using hz
        subst hz'
        rw [hidx]
        rw [List.map_cons, List.map_cons, List.chain'_cons] at hchain
        exact hchain.1
    obtain ⟨t, ht⟩ := ih s' hchain' hhead' (Or.inl hbne)
    exact ⟨t, by simp only [slice_run, hs']; exact ht⟩

instance {ε α : Type} [DecidableEq ε] [DecidableEq α] :
    DecidableEq (Except ε α) := fun
  | Except.error a, Except.error b =>
    if h : a = b then isTrue (by rw [h])
    else isFalse (fun hc => h (Except.error.inj hc))
  | Except.error _, Except.ok _ => isFalse (fun hc => Except.noConfusion hc)
  | Except.ok _, Except.error _ => isFalse (fun hc => Except.noConfusion hc)
  | Except.ok a, Except.ok b =>
    if h : a = b then isTrue (by rw [h])
    else isFalse (fun hc => h (Except.ok.inj hc))

/-- C5 counterexample: the one-entry stream `[20]` (`kBC = 15`) has
non-decreasing bucket indices, yet the slicer does not process it without
error: the entry lies in bucket 1, so the first rotation reads
`L_bucket[0]->size()` (phase1.hpp line 327) through the still-null initial
pointer and the drive dies there — a crash, not "input not sorted".
Consequently on `[20, 3]` (bucket indices 1 then 0, a backwards step) the
`"input not sorted"` error is never raised either. -/
theorem slicer_crashes_on_nonzero_first_bucket :
    List.Chain' (· ≤ ·) ([(20 : Nat)].map (· / 15))
    ∧ slice_run 15 {} [20] = Except.error "null dereference"
    ∧ slice_run 15 {} [20] ≠ Except.error "input not sorted"
    ∧ (¬ ∃ t, slice_run 15 {} [20] = Except.ok t)
    ∧ (20 : Nat) / 15 = 1 ∧ (3 : Nat) / 15 = 0
    ∧ slice_run 15 {} [20, 3] ≠ Except.error "input not sorted" := by
  refine ⟨by simp, by decide, by decide, ?_, by decide, by decide, by decide⟩
  rintro ⟨t, ht⟩
  have h : slice_run 15 {} [20] = Except.error "null dereference" := by decide
  rw [h] at ht
  exact absurd ht (by simp)

/-- C5 (amended: the no-error guarantee for sorted streams additionally
needs the stream to open in bucket 0 — otherwise the first rotation
dereferences the null initial `L_bucket[0]` and the drive crashes before any
"input not sorted" check can matter): started from the initial window, the
slicing stage raises the fatal `"input not sorted"` error iff some incoming
entry's bucket index `floor(y/kBC)` is strictly below the current slot's
index at the moment that entry is reached, and any stream with
non-decreasing bucket indices whose first entry lies in bucket 0 is
processed without error. -/
theorem slicer_not_sorted_error_iff (kBC : Nat) (hkBC : 0 < kBC)
    (input : List Nat) :
    (slice_run kBC {} input = Except.error "input not sorted"
      ↔ ∃ k, ∃ _ : k < input.length, ∃ t,
          slice_run kBC {} (input.take k) = Except.ok t
            ∧ input.getD k 0 / kBC < t.L_index_0)
    ∧ ((∀ z ∈ input.take 1, z / kBC = 0) →
        List.Chain' (· ≤ ·) (input.map (· / kBC)) →
        ∃ t, slice_run kBC {} input = Except.ok t) := by
  constructor
  · exact slice_run_error_iff kBC input {}
  · intro h0 hchain
    exact slice_run_ok_of_sorted kBC input {} hchain
      (fun z _ => Nat.zero_le _) (Or.inr h0)

/-- Witness for the amended C5 at `kBC = 15` on the sorted stream
`[3, 17, 16, 31]` (bucket indices `0, 1, 1, 2`, opening in bucket 0). -/
theorem slicer_not_sorted_error_iff_witness :
    (slice_run 15 {} [3, 17, 16, 31] = Except.error "input not sorted"
      ↔ ∃ k, ∃ _ : k < [3, 17, 16, 31].length, ∃ t,
          slice_run 15 {} ([3, 17, 16, 31].take k) = Except.ok t
            ∧ [3, 17, 16, 31].getD k 0 / 15 < t.L_index_0)
    ∧ ((∀ z ∈ [3, 17, 16, 31].take 1, z / 15 = 0) →
        List.Chain' (· ≤ ·) ([3, 17, 16, 31].map (· / 15)) →
        ∃ t, slice_run 15 {} [3, 17, 16, 31] = Except.ok t) :=
  slicer_not_sorted_error_iff 15 (by decide) [3, 17, 16, 31]

/-! ### The Table-1 generator `F1Calculator` (claims C4, C8, C6) -/

/-- Embedding of `entry_1` (declared in `phase1.h`): `x` is a `uint32_t`
position, `y` the 64-bit field holding the `(K+E)`-bit fingerprint. -/
structure entry_1 where
  x : Nat
  y : Nat
deriving DecidableEq, Inhabited

/-- The 4-byte little-endian word the code `memcpy`s into a zero-initialized
`uint64_t` (phase1.hpp lines 66-67). -/
def le32 (b0 b1 b2 b3 : Nat) : Nat :=
  b0 + b1 * 2 ^ 8 + b2 * 2 ^ 16 + b3 * 2 ^ 24

/-- Embedding of `F1Calculator::compute_entry_1_block` (phase1.hpp lines
59-72).  The ChaCha8 keystream is the out-of-scope stream-cipher primitive of
§6 and is passed in abstractly: `ks index j` is byte `j` of the 64-byte
keystream block at stream position `index`.  `E` is `kExtraBits` (declared in
`phase1.h`, kept as a parameter); the `uint64_t` arithmetic is mod `2^64` and
the `uint32_t` field `x` truncates mod `2^32`. -/
def compute_entry_1_block (E : Nat) (ks : Nat → Nat → Nat) (index : Nat) :
    List entry_1 :=
  (List.range 16).map fun i =>
    let y := le32 (ks index (i * 4)) (ks index (i * 4 + 1))
      (ks index (i * 4 + 2)) (ks index (i * 4 + 3))
    let x := (index * 16 + i) % 2 ^ 64
    { x := x % 2 ^ 32,
      y := ((y <<< E) % 2 ^ 64 ||| x >>> (32 - E)) % 2 ^ 64 }

/-- C4: for every keystream, block index in the 32-bit address range and slot
`i < 16`, the produced entry has `x = index*16 + i` and `y` equal to the
4-byte little-endian keystream word at offset `i*4`, left-shifted by `E` bits
and OR'd with the top `E` bits of the 32-bit `x`. -/
theorem compute_entry_1_block_spec (E : Nat) (hE : E ≤ 32)
    (ks : Nat → Nat → Nat) (hks : ∀ n j, ks n j < 256) (index : Nat)
    (hidx : index * 16 + 15 < 2 ^ 32) :
    ∀ i, i < 16 →
      (compute_entry_1_block E ks index).getD i default
        = { x := index * 16 + i,
            y := (le32 (ks index (i * 4)) (ks index (i * 4 + 1))
                (ks index (i * 4 + 2)) (ks index (i * 4 + 3))) <<< E
              ||| (index * 16 + i) >>> (32 - E) } := by
  intro i hi
  have hlen : i < (compute_entry_1_block E ks index).length := by
    rw [compute_entry_1_block, List.length_map, List.length_range]; exact hi
  rw [List.getD_eq_getElem _ _ hlen]
  simp only [compute_entry_1_block, List.getElem_map, List.getElem_range]
  have hx : index * 16 + i < 2 ^ 32 := by omega
  have hx64 : index * 16 + i < 2 ^ 64 := lt_trans hx (by norm_num)
  have hw : le32 (ks index (i * 4)) (ks index (i * 4 + 1))
      (ks index (i * 4 + 2)) (ks index (i * 4 + 3)) < 2 ^ 32 := by
    have h0 := hks index (i * 4)
    have h1 := hks index (i * 4 + 1)
    have h2 := hks index (i * 4 + 2)
    have h3 := hks index (i * 4 + 3)
    rw [le32]
    omega
  have hwE : le32 (ks index (i * 4)) (ks index (i * 4 + 1))
      (ks index (i * 4 + 2)) (ks index (i * 4 + 3)) <<< E < 2 ^ 64 := by
    rw [Nat.shiftLeft_eq]
    calc le32 (ks index (i * 4)) (ks index (i * 4 + 1))
          (ks index (i * 4 + 2)) (ks index (i * 4 + 3)) * 2 ^ E
        < 2 ^ 32 * 2 ^ E := by
          exact (Nat.mul_lt_mul_right (Nat.pos_pow_of_pos E (by norm_num))).mpr hw
      _ ≤ 2 ^ 32 * 2 ^ 32 := by
          exact Nat.mul_le_mul_left _ (Nat.pow_le_pow_right (by norm_num) hE)
      _ = 2 ^ 64 := by norm_num
  have hshift : (index * 16 + i) >>> (32 - E) < 2 ^ 64 := by
    rw [Nat.shiftRight_eq_div_pow]
    exact lt_of_le_of_lt (Nat.div_le_self _ _) hx64
  rw [entry_1.mk.injEq]
  constructor
  · rw [Nat.mod_eq_of_lt hx64, Nat.mod_eq_of_lt hx]
  · rw [Nat.mod_eq_of_lt hx64, Nat.mod_eq_of_lt hwE,
      Nat.mod_eq_of_lt (Nat.or_lt_two_pow hwE hshift)]

/-- Witness for C4 at `E = 6`, constant keystream byte `7`, block `5`,
slot `3`. -/
theorem compute_entry_1_block_spec_witness :
    (compute_entry_1_block 6 (fun _ _ => 7) 5).getD 3 default
      = { x := 5 * 16 + 3,
          y := le32 7 7 7 7 <<< 6 ||| (5 * 16 + 3) >>> (32 - 6) } :=
  compute_entry_1_block_spec 6 (by decide) (fun _ _ => 7)
    (fun _ _ => by show (7 : Nat) < 256; decide) 5 (by decide) 3 (by decide)

/-- The direct contribution of `x` to `y` in `compute_entry_1_block`
(the second operand of the OR on phase1.hpp line 69): the TOP `E` bits
`x >> (32 - E)`. -/
def xContrib (E x : Nat) : Nat := x >>> (32 - E)

/-- Pure form of slot-independence: within one 16-aligned block the top
`E ≤ 28` bits do not depend on the slot. -/
theorem xContrib_slot_independent (E K i j : Nat) (hE : E ≤ 28)
    (hi : i < 16) (hj : j < 16) :
    xContrib E (K * 16 + i) = xContrib E (K * 16 + j) := by
  have h16 : (2 : Nat) ^ (32 - E) = 16 * 2 ^ (28 - E) := by
    have h4 : 32 - E = 4 + (28 - E) := by omega
    rw [h4, pow_add]
    norm_num
  have hdiv : ∀ s, s < 16 → (K * 16 + s) / 16 = K := by
    intro s hs
    rw [mul_comm, Nat.mul_add_div (by norm_num), Nat.div_eq_of_lt hs]
    rfl
  rw [xContrib, xContrib, Nat.shiftRight_eq_div_pow, Nat.shiftRight_eq_div_pow,
    h16, ← Nat.div_div_eq_div_mul, ← Nat.div_div_eq_div_mul,
    hdiv i hi, hdiv j hj]

/-- The 64-bit `x` of a slot splits as `(index*16 + s) % 2^64
= (index % 2^60) * 16 + s`: one keystream block never straddles a `2^64`
wrap. -/
theorem x_mod_split (index s : Nat) (hs : s < 16) :
    (index * 16 + s) % 2 ^ 64 = index % 2 ^ 60 * 16 + s := by
  have h64 : (2 : Nat) ^ 64 = 2 ^ 60 * 16 := by norm_num
  have hmul : index * 16 % 2 ^ 64 = index % 2 ^ 60 * 16 := by
    rw [h64, Nat.mul_mod_mul_right]
  have hlt : index % 2 ^ 60 * 16 + s < 2 ^ 64 := by
    have := Nat.mod_lt index (y := 2 ^ 60) (by norm_num)
    omega
  calc (index * 16 + s) % 2 ^ 64
      = (index * 16 % 2 ^ 64 + s) % 2 ^ 64 := by
        rw [Nat.add_mod]
        rw [Nat.mod_eq_of_lt (show s < 2 ^ 64 by omega)]
    _ = (index % 2 ^ 60 * 16 + s) % 2 ^ 64 := by rw [hmul]
    _ = index % 2 ^ 60 * 16 + s := Nat.mod_eq_of_lt hlt

/-- C8 counterexample: there is NO pair of slots of a keystream block whose
direct x-contributions to `y` differ — the contribution is the top `E` bits
of `x`, shared by the whole block (here at the shipped `E = 6`; the claim
asserts such a pair exists for every block). -/
theorem f1_y_low_bits_cex :
    ¬ ∃ index i j : Nat, i < 16 ∧ j < 16 ∧
      xContrib 6 ((index * 16 + i) % 2 ^ 64)
        ≠ xContrib 6 ((index * 16 + j) % 2 ^ 64) := by
  rintro ⟨index, i, j, hi, hj, hne⟩
  rw [x_mod_split index i hi, x_mod_split index j hj] at hne
  exact hne (xContrib_slot_independent 6 _ i j (by omega) hi hj)

/-- C8 (amended: `y` depends on the TOP `E` bits of `x`, not the low bits):
every slot of a block carries the same direct x-contribution
`xContrib E x = x >> (32-E)`, and each slot's `y` is exactly the keystream
word at its offset shifted by `E`, OR'd with that shared block-level
contribution — so within a fixed keystream block, `y` is determined by the
keystream and the block's top x-bits alone, independent of `x`'s low bits. -/
theorem f1_y_top_bits_shared (E : Nat) (hE : E ≤ 28) (ks : Nat → Nat → Nat)
    (index : Nat) :
    ∀ i j, i < 16 → j < 16 →
      xContrib E (((index * 16 + i) % 2 ^ 64))
          = xContrib E (((index * 16 + j) % 2 ^ 64))
      ∧ ((compute_entry_1_block E ks index).getD i default).y
          = ((le32 (ks index (i * 4)) (ks index (i * 4 + 1))
              (ks index (i * 4 + 2)) (ks index (i * 4 + 3)) <<< E) % 2 ^ 64
            ||| xContrib E ((index * 16 + i) % 2 ^ 64)) % 2 ^ 64 := by
  intro i j hi hj
  constructor
  · rw [x_mod_split index i hi, x_mod_split index j hj]
    exact xContrib_slot_independent E _ i j hE hi hj
  · have hlen : i < (compute_entry_1_block E ks index).length := by
      rw [compute_entry_1_block, List.length_map, List.length_range]; exact hi
    rw [List.getD_eq_getElem _ _ hlen]
    simp only [compute_entry_1_block, List.getElem_map, List.getElem_range]
    rfl

/-- Witness for the amended C8 at `E = 6`, zero keystream, block `3`,
slots `0` and `15`. -/
theorem f1_y_top_bits_shared_witness :
    xContrib 6 ((3 * 16 + 0) % 2 ^ 64) = xContrib 6 ((3 * 16 + 15) % 2 ^ 64)
    ∧ ((compute_entry_1_block 6 (fun _ _ => 0) 3).getD 0 default).y
        = ((le32 0 0 0 0 <<< 6) % 2 ^ 64
          ||| xContrib 6 ((3 * 16 + 0) % 2 ^ 64)) % 2 ^ 64 :=
  f1_y_top_bits_shared 6 (by decide) (fun _ _ => 0) 3 0 15 (by decide) (by decide)

/-! ### The Table-1 drive `compute_f1` (claim C6) -/

/-- `FxCalculator::k_ = 32` (phase1.hpp line 82), the proof-of-space size
parameter `K` of the spec. -/
def k_ : Nat := 32

/-- Embedding of `compute_f1` (phase1.hpp lines 245-263): `M = 4096` blocks
per chunk, `(1 << 28) / M / 4` chunks dispatched to the pool, each block
yielding 16 entries.  The pool completes chunks in nondeterministic order;
this list fixes the dispatch order, which is irrelevant for the coverage
facts proved about it. -/
def compute_f1 (E : Nat) (ks : Nat → Nat → Nat) : List entry_1 :=
  (List.range (2 ^ 28 / 4096 / 4)).flatMap fun k =>
    (List.range 4096).flatMap fun i =>
      compute_entry_1_block E ks (k * 4096 + i)

theorem range_mul_flatMap (a b : Nat) :
    List.range (a * b)
      = (List.range a).flatMap fun k => (List.range b).map fun i => k * b + i := by
  induction a with
  | zero => simp
  | succ a ih =>
    rw [Nat.succ_mul, List.range_add, ih, List.range_succ, List.flatMap_append]
    simp

theorem flatMap_congr_of_eq {α β : Type} (l : List α) (f g : α → List β)
    (h : ∀ a ∈ l, f a = g a) : l.flatMap f = l.flatMap g := by
  induction l with
  | nil => rfl
  | cons x xs ih =>
    rw [List.flatMap_cons, List.flatMap_cons, h x (by simp), ih]
    intro a ha
    exact h a (by simp [ha])

/-- C6 (code bug): `compute_f1` generates exactly the `x` values in
`[0, 2^30)`, each exactly once — one quarter of the full address space
`[0, 2^k_) = [0, 2^32)` implied by `K = k_ = 32`; e.g. `x = 2^30` is never
generated. -/
theorem compute_f1_covers_only_quarter (E : Nat) (ks : Nat → Nat → Nat) :
    (compute_f1 E ks).map entry_1.x = List.range (2 ^ 30)
    ∧ 2 ^ 30 < 2 ^ k_
    ∧ ((compute_f1 E ks).map entry_1.x).count (2 ^ 30) = 0
    ∧ ∀ x : Nat, ((compute_f1 E ks).map entry_1.x).count x
        = if x < 2 ^ 30 then 1 else 0 := by
  have hblock : ∀ idx : Nat, idx < 2 ^ 26 →
      (compute_entry_1_block E ks idx).map entry_1.x
        = (List.range 16).map fun s => idx * 16 + s := by
    intro idx hidx
    rw [compute_entry_1_block, List.map_map]
    apply List.map_congr_left
    intro s hs
    rw [List.mem_range] at hs
    show (entry_1.x { x := (idx * 16 + s) % 2 ^ 64 % 2 ^ 32, y := _ }) = idx * 16 + s
    dsimp only
    have hlt : idx * 16 + s < 2 ^ 32 := by omega
    rw [Nat.mod_eq_of_lt (lt_trans hlt (by norm_num)), Nat.mod_eq_of_lt hlt]
  have hchunks : (2 : Nat) ^ 28 / 4096 / 4 = 2 ^ 14 := by norm_num
  have hxs : (compute_f1 E ks).map entry_1.x = List.range (2 ^ 30) := by
    rw [compute_f1, hchunks, List.map_flatMap]
    have h30 : (2 : Nat) ^ 30 = 2 ^ 14 * 2 ^ 16 := by norm_num
    rw [h30, range_mul_flatMap]
    apply flatMap_congr_of_eq
    intro k hk
    rw [List.mem_range] at hk
    rw [List.map_flatMap]
    have h16 : (2 : Nat) ^ 16 = 4096 * 16 := by norm_num
    rw [h16, range_mul_flatMap, List.map_flatMap]
    apply flatMap_congr_of_eq
    intro i hi
    rw [List.mem_range] at hi
    have hidx : k * 4096 + i < 2 ^ 26 := by omega
    rw [hblock _ hidx, List.map_map]
    apply List.map_congr_left
    intro s hs
    rw [List.mem_range] at hs
    simp only [Function.comp_apply]
    ring
  refine ⟨hxs, by rw [k_]; norm_num, ?_, ?_⟩
  · rw [hxs]
    exact List.count_eq_zero.mpr (fun hmem => by
      have := List.mem_range.mp hmem
      omega)
  · intro x
    rw [hxs]
    by_cases hx : x < 2 ^ 30
    · rw [if_pos hx]
      exact List.count_eq_one_of_mem (List.nodup_range _) (List.mem_range.mpr hx)
    · rw [if_neg hx]
      exact List.count_eq_zero.mpr (fun hmem => hx (List.mem_range.mp hmem))

/-! ### The table-k generator `FxCalculator::evaluate` (claim C3) -/

/-- Result of one `FxCalculator::evaluate` call (phase1.hpp lines 92-141) at
the bit level: the bit string that is hashed, the new `y` bits, and the
carried metadata bits `C`.

Modelled from the spec: the bit-packing utility `Bits` (§6; `chia/bits.hpp`
is not among the sources) is a bit string — here `List Bool`, most
significant bit first — whose `+` is concatenation and whose `Slice` takes a
bit range; the fixed-output hash (§6; BLAKE3) is abstract, `hash input` being
its digest as bits. -/
structure fx_result where
  input : List Bool
  y : List Bool
  c : List Bool
deriving DecidableEq

/-- Embedding of `FxCalculator::evaluate` (phase1.hpp lines 92-141): for
`table_index < 4`, `C = L_c + R_c` and the hashed string is `Y_1 + C`;
otherwise the hashed string is `Y_1 + L_c + R_c`, and for
`4 ≤ table_index < 7` the metadata is the hash's bit slice
`[k_+E, k_+E + k_*kVectorLens[table_index+1])` while for `table_index ≥ 7` it
stays empty.  The new `y` is the top `k_+E` bits of the hash.  `kVectorLens`
is the vector-length table declared in `phase1.h` (not among the sources),
kept abstract. -/
def evaluate (hash : List Bool → List Bool) (kVectorLens : Nat → Nat)
    (E table_index : Nat) (Y1 L_c R_c : List Bool) : fx_result :=
  let C : List Bool := if table_index < 4 then L_c ++ R_c else []
  let input : List Bool :=
    if table_index < 4 then Y1 ++ (L_c ++ R_c) else Y1 ++ L_c ++ R_c
  let hb := hash input
  let c : List Bool :=
    if table_index < 4 then C
    else if table_index < 7 then
      (hb.drop (k_ + E)).take (k_ * kVectorLens (table_index + 1))
    else C
  { input := input, y := hb.take (k_ + E), c := c }

/-- Numeric value of a bit string, most significant bit first (the claim's
reading of metadata "summing" is stated through it). -/
def natOfBits (l : List Bool) : Nat :=
  l.foldl (fun a b => 2 * a + (if b then 1 else 0)) 0

/-- C3 counterexample: at `table_index = 2` with left metadata `[1,0]`
(value 2) and right metadata `[0,1]` (value 1), the carried metadata is the
concatenation `[1,0,0,1]` (value 9) — not the sum `3` —, because the Bits `+`
applied on phase1.hpp line 111 is concatenation (§6 contract of the
bit-packing utility). -/
theorem fx_metadata_not_sum :
    (evaluate (fun l => l) (fun _ => 0) 6 2 [] [true, false] [false, true]).c
        = [true, false, false, true]
    ∧ natOfBits (evaluate (fun l => l) (fun _ => 0) 6 2 []
        [true, false] [false, true]).c = 9
    ∧ natOfBits [true, false] + natOfBits [false, true] = 3
    ∧ natOfBits (evaluate (fun l => l) (fun _ => 0) 6 2 []
          [true, false] [false, true]).c
        ≠ natOfBits [true, false] + natOfBits [false, true] := by
  exact ⟨by decide, by decide, by decide, by decide⟩

/-- C3 (amended: concatenation, not sum): for every table index before the
4th, `evaluate` carries as metadata the CONCATENATION of the metadata bits of
the left and right inputs, and that same concatenation is the metadata part
of the hashed string `Y_1 + (L_c + R_c)`. -/
theorem fx_metadata_concat (hash : List Bool → List Bool)
    (kVectorLens : Nat → Nat) (E table_index : Nat) (h4 : table_index < 4)
    (Y1 L_c R_c : List Bool) :
    (evaluate hash kVectorLens E table_index Y1 L_c R_c).c = L_c ++ R_c
    ∧ (evaluate hash kVectorLens E table_index Y1 L_c R_c).input
        = Y1 ++ (evaluate hash kVectorLens E table_index Y1 L_c R_c).c := by
  constructor
  · rw [evaluate]
    simp only [if_pos h4]
  · rw [evaluate]
    simp only [if_pos h4]

/-- Witness for the amended C3 at `table_index = 2`. -/
theorem fx_metadata_concat_witness :
    (evaluate (fun l => l) (fun _ => 0) 6 2 [] [true, false] [false, true]).c
        = [true, false] ++ [false, true]
    ∧ (evaluate (fun l => l) (fun _ => 0) 6 2 [] [true, false] [false, true]).input
        = [] ++ (evaluate (fun l => l) (fun _ => 0) 6 2 []
            [true, false] [false, true]).c :=
  fx_metadata_concat (fun l => l) (fun _ => 0) 6 2 (by decide) []
    [true, false] [false, true]

end Phase1
